import Mathlib

/-!
The sylo contract: a keyed store of integer lists with gas accounting.
A shallow embedding of `main.go`.

* A Go `int` is an `Int` kept in the 64-bit two's-complement range: every
  addition the program performs goes through `wrapInt`.
* A Go `[]int` is a `Slice`: `none` is the nil slice, `some l` a non-nil slice
  holding the elements `l`.
* The contract's `map[string][]int` is a function from keys to optional slices.
* The value a `context.Context` carries under `requestKey` is an optional
  `requestDetails`; `addOperationsToContext` updates the details the context
  points to and returns the context that carries them.
* Where sharing of backing arrays matters, the operations are given a second
  time over slice headers that point into a heap (`memReadSortedList` and
  its companions), and shown to denote the operations on sequences.
-/

namespace Sylo

/-! ## Machine integers and slices -/

/-- Smallest value of a Go `int` on a 64-bit target. -/
def minInt : Int := -9223372036854775808

/-- Largest value of a Go `int` on a 64-bit target. -/
def maxInt : Int := 9223372036854775807

/-- Reduction of an exact integer to the value a Go `int` holds after
overflow wraps around. -/
def wrapInt (x : Int) : Int :=
  (x + 9223372036854775808) % 18446744073709551616 - 9223372036854775808

/-- A Go `[]int`: `none` is nil. -/
abbrev Slice := Option (List Int)

/-- The elements of a slice, none for nil. -/
def Slice.elems (s : Slice) : List Int :=
  match s with
  | some l => l
  | none => []

/-! ## Data model (`main.go`, lines 10-43) -/

/-- Go `type operation int`: an operation is its own cost. -/
abbrev operation := Int

def del : operation := -15
def read : operation := 1
def modify : operation := 5
def write : operation := 20

/-- Go `response`. -/
structure response where
  data : Slice
  gas : Int
  free : Bool
  deriving DecidableEq, Repr

/-- Go `requestDetails`. -/
structure requestDetails where
  gas : Int
  free : Bool
  deriving DecidableEq, Repr

/-- What a `context.Context` holds under `requestKey`. -/
abbrev Context := Option requestDetails

/-- Go `contract`: the `data` map. -/
structure contract where
  data : String → Option Slice

/-- Go `m[k] = v`. -/
def mapSet (m : String → Option Slice) (k : String) (v : Slice) : String → Option Slice :=
  fun k' => if k' = k then some v else m k'

/-- Go `delete(m, k)`. -/
def mapDelete (m : String → Option Slice) (k : String) : String → Option Slice :=
  fun k' => if k' = k then none else m k'

/-- Go `newContract`. -/
def newContract : contract :=
  { data := fun k => if k = "unsorted_list" then some (some [8, 4, 3, 0, 1, 3, 6, 4]) else none }

/-! ## Gas accounting (`main.go`, lines 118-151) -/

/-- One iteration of the loop of `addOperationsToContext`. -/
def recordOp (details : requestDetails) (op : operation) : requestDetails :=
  let details1 : requestDetails :=
    if op = modify ∨ op = write then { details with free := false } else details
  { details1 with gas := wrapInt (details1.gas + op) }

/-- Go `addOperationsToContext`. -/
def addOperationsToContext (ctx : Context) (ops : List operation) : Context :=
  let details : requestDetails :=
    match ctx with
    | some d => d
    | none => { gas := 0, free := true }
  some (ops.foldl recordOp details)

/-- Go `toResponse`. -/
def toResponse (ctx : Context) (data : Slice) : response :=
  match ctx with
  | none => { data := none, gas := 0, free := false }
  | some details => { data := data, gas := details.gas, free := details.free }

/-! ## Sorting (`main.go`, lines 80-101) -/

/-- Body of the inner loop of `sortList`: compare `res[j]` with `res[j+1]`
and exchange them when they are out of order. -/
def swapStep (res : List Int) (j : Nat) : List Int :=
  if res.getD j 0 > res.getD (j + 1) 0 then
    let lesser := res.getD (j + 1) 0
    let res1 := res.set (j + 1) (res.getD j 0)
    res1.set j lesser
  else res

/-- Inner loop of `sortList`: `for j := 0; j < n-1; j++`. For `n = 0` the
bound `n - 1` is negative in Go and the loop body never runs; the truncated
subtraction gives the empty range as well. -/
def innerLoop (n : Nat) (res : List Int) : List Int :=
  (List.range (n - 1)).foldl swapStep res

/-- Go `sortList` (its receiver and context are not used by the body). The
result is a fresh slice of the length of the argument. -/
def sortList (slice : Slice) : Slice :=
  let res := slice.elems
  let n := res.length
  some ((List.range n).foldl (fun r _ => innerLoop n r) res)

/-! ## Contract operations (`main.go`, lines 54-78) -/

/-- Go `SetList`: the contract after the call, the context handed to
`toResponse`, and the response. -/
def contract.SetList (c : contract) (ctx : Context) (slice : Slice) :
    contract × Context × response :=
  let data1 := mapSet c.data "unsorted_list" slice
  let data2 := mapDelete data1 "sorted_list"
  let ctx1 := addOperationsToContext ctx [write, del]
  ({ data := data2 }, ctx1, toResponse ctx1 none)

/-- Go `ReadSortedList`: the contract after the call, the value of the local
`ctx` when the function returns, and the pair `(*response, error)`. -/
def contract.ReadSortedList (c : contract) (ctx : Context) :
    contract × Context × Except String response :=
  let ctx1 := addOperationsToContext ctx [read]
  match c.data "sorted_list" with
  | some res => (c, ctx1, Except.ok (toResponse ctx1 res))
  | none =>
    match c.data "unsorted_list" with
    | none => (c, ctx1, Except.error "no unsorted list")
    | some unsorted =>
      let res := sortList unsorted
      let c1 : contract := { data := mapSet c.data "sorted_list" res }
      let ctx2 := addOperationsToContext ctx1 [write]
      (c1, ctx2, Except.ok (toResponse ctx2 res))

/-! ## Call sequences -/

/-- One call of the contract's interface, with the context it is given. -/
inductive Call where
  | setList (ctx : Context) (slice : Slice)
  | readSortedList (ctx : Context)

/-- The contract after one call. -/
def step (c : contract) (call : Call) : contract :=
  match call with
  | Call.setList ctx slice => (c.SetList ctx slice).1
  | Call.readSortedList ctx => (c.ReadSortedList ctx).1

/-- The contract reached from `newContract` by a sequence of calls. -/
def run (calls : List Call) : contract :=
  calls.foldl step newContract

/-! ## A list-recursive description of one pass, used in the proofs -/

/-- One left-to-right pass carrying the element `a` through `rest`. -/
def bubbleFrom (a : Int) : List Int → List Int
  | [] => [a]
  | b :: t => if a > b then b :: bubbleFrom a t else a :: bubbleFrom b t

/-- One left-to-right pass over a list. -/
def bubblePass : List Int → List Int
  | [] => []
  | a :: t => bubbleFrom a t

/-! ## The caller's view of a context -/

/-- The details a caller finds in its own context after a call. A Go context
is immutable and the contract's methods do not return the context they
derive: a caller whose context carries no details still holds a context
without details, while details that exist are reached through their pointer
and show everything the call recorded. -/
def callerContext (before after : Context) : Context :=
  match before with
  | none => none
  | some _ => after

/-- A caller that runs `SetList(ctx, slice)` and then `ReadSortedList(ctx)`
with one and the same context: the contract, the caller's context and the
second call's result afterwards. -/
def setThenRead (c : contract) (ctx : Context) (slice : Slice) :
    contract × Context × Except String response :=
  let r1 := c.SetList ctx slice
  let ctx1 := callerContext ctx r1.2.1
  let r2 := r1.1.ReadSortedList ctx1
  (r2.1, callerContext ctx1 r2.2.1, r2.2.2)

/-! ## Slices as references into a heap of backing arrays

The definitions above treat a slice as the sequence it holds. To follow what
happens when a caller writes through a slice it was handed, the same program
is given here with slice headers that point into a heap. -/

/-- A non-nil Go slice header: the address of the backing array and the
length of the slice. -/
structure SliceHdr where
  addr : Nat
  len : Nat
  deriving DecidableEq, Repr

/-- A Go `[]int` as a header; `none` is nil. -/
abbrev RefSlice := Option SliceHdr

/-- The backing arrays, by address. -/
abbrev Heap := List (List Int)

/-- The sequence a slice header denotes in a heap. -/
def view (h : Heap) (s : RefSlice) : Slice :=
  match s with
  | none => none
  | some hd => some ((h.getD hd.addr []).take hd.len)

/-- Go `s[i] = x` for `i < len(s)`. -/
def storeAt (h : Heap) (s : RefSlice) (i : Nat) (x : Int) : Heap :=
  match s with
  | none => h
  | some hd => if i < hd.len then h.set hd.addr ((h.getD hd.addr []).set i x) else h

/-- Go `response`, holding a slice header. -/
structure memResponse where
  data : RefSlice
  gas : Int
  free : Bool
  deriving DecidableEq, Repr

/-- Go `contract`, its map holding slice headers. -/
structure memContract where
  data : String → Option RefSlice

/-- Go `newContract`: the default list is allocated at address 0. -/
def memNewContract : Heap × memContract :=
  ([[8, 4, 3, 0, 1, 3, 6, 4]],
    { data := fun k => if k = "unsorted_list" then some (some ⟨0, 8⟩) else none })

/-- Go `toResponse`, on headers. -/
def memToResponse (ctx : Context) (data : RefSlice) : memResponse :=
  match ctx with
  | none => { data := none, gas := 0, free := false }
  | some details => { data := data, gas := details.gas, free := details.free }

/-- Go `sortList`, on headers: `make` allocates a new backing array of the
length of the argument, `copy` and the two loops fill it, and the header of
the new array is returned. The argument's array is only read. -/
def memSortList (h : Heap) (slice : RefSlice) : Heap × RefSlice :=
  let res := (sortList (view h slice)).elems
  (h ++ [res], some ⟨h.length, res.length⟩)

/-- Go `SetList`, on headers: the map keeps the caller's header. -/
def memSetList (h : Heap) (c : memContract) (ctx : Context) (slice : RefSlice) :
    Heap × memContract × Context × memResponse :=
  let data1 : String → Option RefSlice :=
    fun k => if k = "unsorted_list" then some slice else c.data k
  let data2 : String → Option RefSlice :=
    fun k => if k = "sorted_list" then none else data1 k
  let ctx1 := addOperationsToContext ctx [write, del]
  (h, { data := data2 }, ctx1, memToResponse ctx1 none)

/-- Go `ReadSortedList`, on headers: the header `res` that is stored under
"sorted_list" is the header handed to `toResponse`. -/
def memReadSortedList (h : Heap) (c : memContract) (ctx : Context) :
    Heap × memContract × Context × Except String memResponse :=
  let ctx1 := addOperationsToContext ctx [read]
  match c.data "sorted_list" with
  | some res => (h, c, ctx1, Except.ok (memToResponse ctx1 res))
  | none =>
    match c.data "unsorted_list" with
    | none => (h, c, ctx1, Except.error "no unsorted list")
    | some unsorted =>
      let sorted := memSortList h unsorted
      let res := sorted.2
      let c1 : memContract :=
        { data := fun k => if k = "sorted_list" then some res else c.data k }
      let ctx2 := addOperationsToContext ctx1 [write]
      (sorted.1, c1, ctx2, Except.ok (memToResponse ctx2 res))

/-- The contract of the sequence model that a heap and a contract of headers
denote. -/
def absContract (h : Heap) (c : memContract) : contract :=
  { data := fun k => (c.data k).map (view h) }

/-- The response of the sequence model that a response of headers denotes. -/
def absResponse (h : Heap) (r : memResponse) : response :=
  { data := view h r.data, gas := r.gas, free := r.free }

/-- Every header in the map points to an allocated backing array. -/
def memWF (h : Heap) (c : memContract) : Prop :=
  ∀ (k : String) (hd : SliceHdr), c.data k = some (some hd) → hd.addr < h.length

/-- A caller that builds the default contract, calls `ReadSortedList` and then
writes `res.data[0] = 99` into the data it was handed: the heap and the
contract afterwards. -/
def afterCallerWrite : Heap × memContract :=
  let out := memReadSortedList memNewContract.1 memNewContract.2 none
  match out.2.2.2 with
  | Except.ok r => (storeAt out.1 r.data 0 99, out.2.1)
  | Except.error _ => (out.1, out.2.1)

/-! ## Call sequences over the heap, with the caller's own actions -/

/-- What a caller can do between and around the calls: call the two
methods, build a new slice, or write `s[i] = x` into a slice it holds. -/
inductive MemCall where
  | setList (ctx : Context) (slice : RefSlice)
  | readSortedList (ctx : Context)
  | alloc (a : List Int)
  | write (slice : RefSlice) (i : Nat) (x : Int)

/-- The heap and the contract after one action of the caller. -/
def memStep (st : Heap × memContract) (call : MemCall) : Heap × memContract :=
  match call with
  | MemCall.setList ctx slice =>
    ((memSetList st.1 st.2 ctx slice).1, (memSetList st.1 st.2 ctx slice).2.1)
  | MemCall.readSortedList ctx =>
    ((memReadSortedList st.1 st.2 ctx).1, (memReadSortedList st.1 st.2 ctx).2.1)
  | MemCall.alloc a => (st.1 ++ [a], st.2)
  | MemCall.write slice i x => (storeAt st.1 slice i x, st.2)

/-- The heap and the contract reached from `newContract` by a sequence of
actions. -/
def memRun (calls : List MemCall) : Heap × memContract :=
  calls.foldl memStep memNewContract

/-- A slice is nil or its backing array exists in the heap. -/
def allocated (h : Heap) (s : RefSlice) : Bool :=
  match s with
  | none => true
  | some hd => decide (hd.addr < h.length)

/-- The address of the backing array of the slice stored under a key. -/
def storedAddr (c : memContract) (k : String) : Option Nat :=
  match c.data k with
  | some (some hd) => some hd.addr
  | _ => none

/-- The slice shares its backing array with the slice stored under
"unsorted_list" or under "sorted_list". -/
def sharedWithStore (c : memContract) (s : RefSlice) : Bool :=
  match s with
  | none => false
  | some hd =>
    decide (storedAddr c "unsorted_list" = some hd.addr ∨
      storedAddr c "sorted_list" = some hd.addr)

/-- An action is admitted when the slice handed to `SetList` exists in the
heap and a write does not go to a backing array shared with the store. -/
def callOK (st : Heap × memContract) (call : MemCall) : Bool :=
  match call with
  | MemCall.setList _ slice => allocated st.1 slice
  | MemCall.readSortedList _ => true
  | MemCall.alloc _ => true
  | MemCall.write slice _ _ => !(sharedWithStore st.2 slice)

/-- Every action of the sequence is admitted in the state it is taken in. -/
def callsOK (st : Heap × memContract) (calls : List MemCall) : Bool :=
  match calls with
  | [] => true
  | call :: rest => callOK st call && callsOK (memStep st call) rest

/-- The cache invariant on a heap and a contract of headers. -/
def memCacheInv (st : Heap × memContract) : Prop :=
  ∀ s, st.2.data "sorted_list" = some s →
    ∃ u, st.2.data "unsorted_list" = some u ∧ view st.1 s = sortList (view st.1 u)

/-- A caller that builds `s = [2, 1, 3]`, calls `SetList(s)` and
`ReadSortedList()`, writes `s[0] = 100` and calls `ReadSortedList()` again. -/
def callerWriteTrace : List MemCall :=
  [MemCall.alloc [2, 1, 3], MemCall.setList none (some ⟨1, 3⟩), MemCall.readSortedList none,
    MemCall.write (some ⟨1, 3⟩) 0 100, MemCall.readSortedList none]

/-! ## Lemmas on sorting -/

theorem swapStep_cons (x : Int) (l : List Int) (j : Nat) :
    swapStep (x :: l) (j + 1) = x :: swapStep l j := by
  unfold swapStep
  simp only [List.getD_cons_succ, List.set_cons_succ]
  split <;> rfl

theorem swapStep_append (pre : List Int) (a b : Int) (t : List Int) :
    swapStep (pre ++ a :: b :: t) pre.length =
      if a > b then pre ++ b :: a :: t else pre ++ a :: b :: t := by
  induction pre with
  | nil => simp [swapStep]
  | cons x pre ih =>
    simp only [List.cons_append, List.length_cons, swapStep_cons, ih]
    split <;> rfl

theorem foldl_swapStep (rest : List Int) : ∀ (pre : List Int) (a : Int),
    (List.range' pre.length rest.length).foldl swapStep (pre ++ a :: rest) =
      pre ++ bubbleFrom a rest := by
  induction rest with
  | nil => intro pre a; simp [bubbleFrom]
  | cons b t ih =>
    intro pre a
    simp only [List.length_cons, List.range'_succ, List.foldl_cons, swapStep_append, bubbleFrom]
    by_cases h : a > b
    · have := ih (pre ++ [b]) a
      simp only [List.length_append, List.length_singleton, List.append_assoc,
        List.singleton_append] at this
      simp [h, this]
    · have := ih (pre ++ [a]) b
      simp only [List.length_append, List.length_singleton, List.append_assoc,
        List.singleton_append] at this
      simp [h, this]

theorem innerLoop_eq (l : List Int) : innerLoop l.length l = bubblePass l := by
  cases l with
  | nil => simp [innerLoop, bubblePass]
  | cons a t =>
    have := foldl_swapStep t [] a
    simpa [innerLoop, bubblePass, List.range_eq_range'] using this

theorem bubbleFrom_perm (t : List Int) : ∀ a, (bubbleFrom a t).Perm (a :: t) := by
  induction t with
  | nil => intro a; simp [bubbleFrom]
  | cons b t ih =>
    intro a
    simp only [bubbleFrom]
    split
    · exact ((ih a).cons b).trans (List.Perm.swap a b t)
    · exact (ih b).cons a

theorem bubblePass_perm (l : List Int) : (bubblePass l).Perm l := by
  cases l with
  | nil => simp [bubblePass]
  | cons a t => exact bubbleFrom_perm t a

theorem bubblePass_length (l : List Int) : (bubblePass l).length = l.length :=
  (bubblePass_perm l).length_eq

theorem bubbleFrom_last (t : List Int) : ∀ a,
    ∃ init m, bubbleFrom a t = init ++ [m] ∧ ∀ x ∈ init, x ≤ m := by
  induction t with
  | nil => intro a; exact ⟨[], a, by simp [bubbleFrom]⟩
  | cons b t ih =>
    intro a
    simp only [bubbleFrom]
    split
    · next h =>
      obtain ⟨init, m, heq, hle⟩ := ih a
      refine ⟨b :: init, m, by simp [heq], ?_⟩
      intro x hx
      rcases List.mem_cons.mp hx with rfl | hx
      · have hm : a ∈ init ++ [m] := heq ▸ (bubbleFrom_perm t a).mem_iff.mpr (List.mem_cons_self a t)
        rcases List.mem_append.mp hm with h1 | h1
        · have := hle a h1; omega
        · simp at h1; omega
      · exact hle x hx
    · next h =>
      obtain ⟨init, m, heq, hle⟩ := ih b
      refine ⟨a :: init, m, by simp [heq], ?_⟩
      intro x hx
      rcases List.mem_cons.mp hx with rfl | hx
      · have hm : b ∈ init ++ [m] := heq ▸ (bubbleFrom_perm t b).mem_iff.mpr (List.mem_cons_self b t)
        rcases List.mem_append.mp hm with h1 | h1
        · have := hle b h1; omega
        · simp at h1; omega
      · exact hle x hx

theorem bubbleFrom_append_max (m : Int) (t : List Int) : ∀ a, a ≤ m → (∀ y ∈ t, y ≤ m) →
    bubbleFrom a (t ++ [m]) = bubbleFrom a t ++ [m] := by
  induction t with
  | nil =>
    intro a ha _
    have : ¬ a > m := by omega
    simp [bubbleFrom, this]
  | cons b t ih =>
    intro a ha ht
    have hb : b ≤ m := ht b (List.mem_cons_self b t)
    have ht2 : ∀ y ∈ t, y ≤ m := fun y hy => ht y (List.mem_cons_of_mem b hy)
    rw [List.cons_append]
    by_cases h : a > b
    · simp only [bubbleFrom, h, if_true, ih a ha ht2, List.cons_append]
    · simp only [bubbleFrom, h, if_false, ih b hb ht2, List.cons_append]

theorem bubblePass_append_max (m : Int) (l : List Int) (h : ∀ y ∈ l, y ≤ m) :
    bubblePass (l ++ [m]) = bubblePass l ++ [m] := by
  cases l with
  | nil => simp [bubblePass, bubbleFrom]
  | cons a t =>
    simp only [List.cons_append, bubblePass]
    exact bubbleFrom_append_max m t a (h a (List.mem_cons_self a t))
      (fun y hy => h y (List.mem_cons_of_mem a hy))

theorem iterate_bubblePass_perm (k : Nat) : ∀ l : List Int, (bubblePass^[k] l).Perm l := by
  induction k with
  | zero => intro l; exact List.Perm.refl l
  | succ k ih =>
    intro l
    rw [Function.iterate_succ_apply]
    exact (ih (bubblePass l)).trans (bubblePass_perm l)

theorem iterate_bubblePass_append_max (m : Int) (k : Nat) : ∀ l : List Int,
    (∀ y ∈ l, y ≤ m) → bubblePass^[k] (l ++ [m]) = bubblePass^[k] l ++ [m] := by
  induction k with
  | zero => intro l _; rfl
  | succ k ih =>
    intro l h
    rw [Function.iterate_succ_apply, Function.iterate_succ_apply, bubblePass_append_max m l h]
    exact ih (bubblePass l) (fun y hy => h y ((bubblePass_perm l).mem_iff.mp hy))

theorem iterate_bubblePass_sorted (k : Nat) : ∀ l : List Int, l.length ≤ k →
    List.Sorted (· ≤ ·) (bubblePass^[k] l) := by
  induction k with
  | zero =>
    intro l hl
    have : l = [] := List.length_eq_zero.mp (Nat.le_zero.mp hl)
    subst this
    exact List.sorted_nil
  | succ k ih =>
    intro l hl
    cases l with
    | nil =>
      have : bubblePass^[k + 1] ([] : List Int) = [] :=
        (iterate_bubblePass_perm (k + 1) []).eq_nil
      rw [this]
      exact List.sorted_nil
    | cons a t =>
      obtain ⟨init, m, heq, hle⟩ := bubbleFrom_last t a
      have hlen : init.length ≤ k := by
        have h1 : (bubbleFrom a t).length = (a :: t).length := (bubbleFrom_perm t a).length_eq
        rw [heq] at h1
        simp at h1 hl
        omega
      rw [Function.iterate_succ_apply]
      show List.Sorted (· ≤ ·) (bubblePass^[k] (bubbleFrom a t))
      rw [heq, iterate_bubblePass_append_max m k init hle]
      refine List.pairwise_append.mpr ⟨ih init hlen, List.pairwise_singleton _ _, ?_⟩
      intro x hx y hy
      have hy2 : y = m := by simpa using hy
      subst hy2
      exact hle x ((iterate_bubblePass_perm k init).mem_iff.mp hx)

theorem foldl_innerLoop (n : Nat) (xs : List Nat) : ∀ l : List Int, l.length = n →
    xs.foldl (fun r _ => innerLoop n r) l = bubblePass^[xs.length] l := by
  induction xs with
  | nil => intro l _; rfl
  | cons x xs ih =>
    intro l hl
    have h1 : innerLoop n l = bubblePass l := by rw [← hl]; exact innerLoop_eq l
    simp only [List.foldl_cons, List.length_cons, Function.iterate_succ_apply, h1]
    exact ih (bubblePass l) (by rw [bubblePass_length, hl])

theorem sortList_eq (slice : Slice) :
    sortList slice = some (bubblePass^[slice.elems.length] slice.elems) := by
  unfold sortList
  simp only [foldl_innerLoop slice.elems.length _ slice.elems rfl, List.length_range]

theorem sortList_elems_sorted (slice : Slice) : List.Sorted (· ≤ ·) (sortList slice).elems := by
  rw [sortList_eq]
  exact iterate_bubblePass_sorted _ _ (Nat.le_refl _)

theorem sortList_elems_perm (slice : Slice) : (sortList slice).elems.Perm slice.elems := by
  rw [sortList_eq]
  exact iterate_bubblePass_perm _ _

/-! ## Lemmas on machine integers and recording -/

theorem wrapInt_of_inRange (x : Int) (h1 : minInt ≤ x) (h2 : x ≤ maxInt) : wrapInt x = x := by
  unfold wrapInt
  unfold minInt at h1
  unfold maxInt at h2
  omega

theorem wrapInt_add_left (a b : Int) : wrapInt (wrapInt a + b) = wrapInt (a + b) := by
  unfold wrapInt
  omega

theorem recordOp_gas (d : requestDetails) (op : operation) :
    (recordOp d op).gas = wrapInt (d.gas + op) := by
  unfold recordOp
  split <;> rfl

theorem recordOp_free (d : requestDetails) (op : operation) :
    (recordOp d op).free = if op = modify ∨ op = write then false else d.free := by
  unfold recordOp
  split <;> rfl

theorem foldl_recordOp_gas (ops : List operation) : ∀ d : requestDetails,
    (ops.foldl recordOp d).gas = if ops = [] then d.gas else wrapInt (d.gas + ops.sum) := by
  induction ops with
  | nil => intro d; rfl
  | cons op ops ih =>
    intro d
    rw [List.foldl_cons, ih, recordOp_gas]
    by_cases h : ops = []
    · subst h; simp
    · simp only [h, if_false, List.cons_ne_nil, List.sum_cons, wrapInt_add_left, Int.add_assoc]

/-! ## Lemmas on the store -/

theorem SetList_sorted (c : contract) (ctx : Context) (v : Slice) :
    (c.SetList ctx v).1.data "sorted_list" = none := by
  simp [contract.SetList, mapDelete]

theorem SetList_unsorted (c : contract) (ctx : Context) (v : Slice) :
    (c.SetList ctx v).1.data "unsorted_list" = some v := by
  simp [contract.SetList, mapDelete, mapSet]

theorem ReadSortedList_cached (c : contract) (ctx : Context) (s : Slice)
    (h : c.data "sorted_list" = some s) :
    c.ReadSortedList ctx =
      (c, addOperationsToContext ctx [read],
        Except.ok (toResponse (addOperationsToContext ctx [read]) s)) := by
  simp [contract.ReadSortedList, h]

theorem ReadSortedList_uncached (c : contract) (ctx : Context) (u : Slice)
    (h : c.data "sorted_list" = none) (hu : c.data "unsorted_list" = some u) :
    c.ReadSortedList ctx =
      ({ data := mapSet c.data "sorted_list" (sortList u) },
        addOperationsToContext (addOperationsToContext ctx [read]) [write],
        Except.ok (toResponse
          (addOperationsToContext (addOperationsToContext ctx [read]) [write]) (sortList u))) := by
  simp [contract.ReadSortedList, h, hu]

theorem addOperationsToContext_some (d : requestDetails) (ops : List operation) :
    addOperationsToContext (some d) ops = some (ops.foldl recordOp d) := rfl

theorem addOperationsToContext_none (ops : List operation) :
    addOperationsToContext none ops = some (ops.foldl recordOp { gas := 0, free := true }) := rfl

theorem step_cacheInv (c : contract) (call : Call)
    (h : ∀ s, c.data "sorted_list" = some s →
      ∃ u, c.data "unsorted_list" = some u ∧ s = sortList u) :
    ∀ s, (step c call).data "sorted_list" = some s →
      ∃ u, (step c call).data "unsorted_list" = some u ∧ s = sortList u := by
  intro s hs
  cases call with
  | setList ctx v =>
    simp only [step, SetList_sorted] at hs
    exact absurd hs (by simp)
  | readSortedList ctx =>
    simp only [step] at hs ⊢
    cases hc : c.data "sorted_list" with
    | some s0 =>
      rw [ReadSortedList_cached c ctx s0 hc] at hs ⊢
      exact h s hs
    | none =>
      cases hu : c.data "unsorted_list" with
      | none =>
        simp only [contract.ReadSortedList, hc, hu] at hs
        exact absurd hs (by simp)
      | some u =>
        rw [ReadSortedList_uncached c ctx u hc hu] at hs ⊢
        simp only [mapSet] at hs ⊢
        refine ⟨u, ?_, ?_⟩
        · simpa using hu
        · simpa using hs.symm

theorem step_unsorted (c : contract) (call : Call)
    (h : ∃ u, c.data "unsorted_list" = some u) :
    ∃ u, (step c call).data "unsorted_list" = some u := by
  cases call with
  | setList ctx v => exact ⟨v, SetList_unsorted c ctx v⟩
  | readSortedList ctx =>
    obtain ⟨u, hu⟩ := h
    simp only [step]
    cases hc : c.data "sorted_list" with
    | some s0 =>
      rw [ReadSortedList_cached c ctx s0 hc]
      exact ⟨u, hu⟩
    | none =>
      rw [ReadSortedList_uncached c ctx u hc hu]
      exact ⟨u, by simpa [mapSet] using hu⟩

theorem foldl_step_cacheInv (calls : List Call) : ∀ c : contract,
    (∀ s, c.data "sorted_list" = some s →
      ∃ u, c.data "unsorted_list" = some u ∧ s = sortList u) →
    ∀ s, (calls.foldl step c).data "sorted_list" = some s →
      ∃ u, (calls.foldl step c).data "unsorted_list" = some u ∧ s = sortList u := by
  induction calls with
  | nil => intro c h; exact h
  | cons call calls ih =>
    intro c h
    exact ih (step c call) (step_cacheInv c call h)

theorem foldl_step_unsorted (calls : List Call) : ∀ c : contract,
    (∃ u, c.data "unsorted_list" = some u) →
    ∃ u, (calls.foldl step c).data "unsorted_list" = some u := by
  induction calls with
  | nil => intro c h; exact h
  | cons call calls ih =>
    intro c h
    exact ih (step c call) (step_unsorted c call h)

theorem ReadSortedList_ok_of_unsorted (c : contract) (ctx : Context) (u : Slice)
    (hu : c.data "unsorted_list" = some u) :
    ∃ r, (c.ReadSortedList ctx).2.2 = Except.ok r := by
  cases hc : c.data "sorted_list" with
  | some s0 =>
    rw [ReadSortedList_cached c ctx s0 hc]
    exact ⟨_, rfl⟩
  | none =>
    rw [ReadSortedList_uncached c ctx u hc hu]
    exact ⟨_, rfl⟩

theorem requestDetails_eq (d : requestDetails) (g : Int) (f : Bool)
    (h1 : d.gas = g) (h2 : d.free = f) : d = ⟨g, f⟩ := by
  cases d
  simp_all

theorem record_read_write (g : Int) (f : Bool) :
    addOperationsToContext (addOperationsToContext (some ⟨g, f⟩) [read]) [write] =
      some ⟨wrapInt (g + 21), false⟩ := by
  simp only [addOperationsToContext, List.foldl_cons, List.foldl_nil]
  have h1 : (recordOp (recordOp ⟨g, f⟩ read) write).gas = wrapInt (g + 21) := by
    rw [recordOp_gas, recordOp_gas, wrapInt_add_left]
    simp only [read, write]
    congr 1
    omega
  have h2 : (recordOp (recordOp ⟨g, f⟩ read) write).free = false := by
    rw [recordOp_free]
    simp
  exact congrArg some (requestDetails_eq _ _ _ h1 h2)

theorem record_read (g : Int) (f : Bool) :
    addOperationsToContext (some ⟨g, f⟩) [read] = some ⟨wrapInt (g + 1), f⟩ := by
  simp only [addOperationsToContext, List.foldl_cons, List.foldl_nil]
  have h1 : (recordOp ⟨g, f⟩ read).gas = wrapInt (g + 1) := by
    rw [recordOp_gas]
    rfl
  have h2 : (recordOp ⟨g, f⟩ read).free = f := by
    rw [recordOp_free]
    simp [read, modify, write]
  exact congrArg some (requestDetails_eq _ _ _ h1 h2)

theorem record_write_del (g : Int) (f : Bool) :
    addOperationsToContext (some ⟨g, f⟩) [write, del] = some ⟨wrapInt (g + 5), false⟩ := by
  simp only [addOperationsToContext, List.foldl_cons, List.foldl_nil]
  have h1 : (recordOp (recordOp ⟨g, f⟩ write) del).gas = wrapInt (g + 5) := by
    rw [recordOp_gas, recordOp_gas, wrapInt_add_left]
    simp only [write, del]
    congr 1
    omega
  have h2 : (recordOp (recordOp ⟨g, f⟩ write) del).free = false := by
    rw [recordOp_free, recordOp_free]
    simp [del, modify, write]
  exact congrArg some (requestDetails_eq _ _ _ h1 h2)

theorem foldl_recordOp_free (ops : List operation) : ∀ d : requestDetails,
    (ops.foldl recordOp d).free = true ↔
      d.free = true ∧ ∀ op ∈ ops, op ≠ modify ∧ op ≠ write := by
  induction ops with
  | nil => intro d; simp
  | cons op ops ih =>
    intro d
    rw [List.foldl_cons, ih, recordOp_free]
    by_cases h : op = modify ∨ op = write
    · simp only [h, if_true, List.mem_cons, forall_eq_or_imp]
      constructor
      · intro h1; exact absurd h1.1 (by simp)
      · intro h1
        rcases h with h | h
        · exact absurd h h1.2.1.1
        · exact absurd h h1.2.1.2
    · simp only [h, if_false, List.mem_cons, forall_eq_or_imp]
      have h2 : op ≠ modify ∧ op ≠ write := not_or.mp h
      constructor
      · intro h1; exact ⟨h1.1, h2, h1.2⟩
      · intro h1; exact ⟨h1.1, h1.2.2⟩

theorem bubbleFrom_of_sorted (t : List Int) : ∀ a, List.Sorted (· ≤ ·) (a :: t) →
    bubbleFrom a t = a :: t := by
  induction t with
  | nil => intro a _; rfl
  | cons b t ih =>
    intro a h
    have hab : a ≤ b := List.rel_of_sorted_cons h b (List.mem_cons_self b t)
    have hnot : ¬ a > b := by omega
    simp only [bubbleFrom, hnot, if_false, ih b (List.Sorted.of_cons h)]

theorem bubblePass_of_sorted (l : List Int) (h : List.Sorted (· ≤ ·) l) : bubblePass l = l := by
  cases l with
  | nil => rfl
  | cons a t => exact bubbleFrom_of_sorted t a h

theorem iterate_bubblePass_of_sorted (k : Nat) (l : List Int) (h : List.Sorted (· ≤ ·) l) :
    bubblePass^[k] l = l := by
  induction k with
  | zero => rfl
  | succ k ih => rw [Function.iterate_succ_apply, bubblePass_of_sorted l h, ih]

theorem sortList_of_sorted (slice : Slice) (h : List.Sorted (· ≤ ·) slice.elems) :
    sortList slice = some slice.elems := by
  rw [sortList_eq, iterate_bubblePass_of_sorted _ _ h]

theorem swapStep_of_sorted (l : List Int) (h : List.Sorted (· ≤ ·) l) (j : Nat)
    (hj : j + 1 < l.length) : swapStep l j = l := by
  have hj0 : j < l.length := by omega
  have hle : l.getD j 0 ≤ l.getD (j + 1) 0 := by
    rw [List.getD_eq_getElem _ _ hj0, List.getD_eq_getElem _ _ hj]
    have := List.Sorted.rel_get_of_lt h (a := ⟨j, hj0⟩) (b := ⟨j + 1, hj⟩) (by simp)
    simpa using this
  have hnot : ¬ l.getD j 0 > l.getD (j + 1) 0 := by omega
  simp only [swapStep, hnot, if_false]

theorem ReadSortedList_missing (c : contract) (ctx : Context)
    (h : c.data "sorted_list" = none) (hu : c.data "unsorted_list" = none) :
    c.ReadSortedList ctx =
      (c, addOperationsToContext ctx [read], Except.error "no unsorted list") := by
  simp [contract.ReadSortedList, h, hu]

theorem ReadSortedList_error_keys (c : contract) (ctx : Context) (e : String)
    (h : (c.ReadSortedList ctx).2.2 = Except.error e) :
    c.data "sorted_list" = none ∧ c.data "unsorted_list" = none := by
  cases hc : c.data "sorted_list" with
  | some s0 =>
    rw [ReadSortedList_cached c ctx s0 hc] at h
    exact absurd h (by simp)
  | none =>
    cases hu : c.data "unsorted_list" with
    | none => exact ⟨rfl, rfl⟩
    | some u =>
      rw [ReadSortedList_uncached c ctx u hc hu] at h
      exact absurd h (by simp)

/-! ## Lemmas on the heap of backing arrays -/

theorem heap_getD_append (h : Heap) (a : List Int) (n : Nat) (hn : n < h.length) :
    (h ++ [a]).getD n [] = h.getD n [] := by
  simp [List.getD_eq_getElem?_getD, List.getElem?_append_left hn]

theorem heap_getD_alloc (h : Heap) (a : List Int) :
    (h ++ [a]).getD h.length [] = a := by
  simp [List.getD_eq_getElem?_getD]

theorem heap_getD_set_self (h : Heap) (a : List Int) (n : Nat) (hn : n < h.length) :
    (h.set n a).getD n [] = a := by
  simp [List.getD_eq_getElem?_getD, List.getElem?_set_self hn]

theorem heap_getD_set_ne (h : Heap) (a : List Int) (n m : Nat) (hnm : n ≠ m) :
    (h.set n a).getD m [] = h.getD m [] := by
  simp [List.getD_eq_getElem?_getD, List.getElem?_set_ne hnm]

theorem view_alloc_old (h : Heap) (a : List Int) (hd : SliceHdr) (hlt : hd.addr < h.length) :
    view (h ++ [a]) (some hd) = view h (some hd) := by
  simp only [view, heap_getD_append h a hd.addr hlt]

theorem view_alloc_new (h : Heap) (a : List Int) :
    view (h ++ [a]) (some ⟨h.length, a.length⟩) = some a := by
  simp only [view, heap_getD_alloc, List.take_length]

theorem view_storeAt_self (h : Heap) (hd : SliceHdr) (i : Nat) (x : Int)
    (hlt : hd.addr < h.length) :
    view (storeAt h (some hd) i x) (some hd) = some ((view h (some hd)).elems.set i x) := by
  simp only [storeAt, view, Slice.elems]
  by_cases hi : i < hd.len
  · simp only [hi, if_true, heap_getD_set_self h _ hd.addr hlt, List.set_take]
  · simp only [hi, if_false]
    rw [List.set_eq_of_length_le]
    simp only [List.length_take]
    omega

theorem view_storeAt_other (h : Heap) (hd hd2 : SliceHdr) (i : Nat) (x : Int)
    (hne : hd.addr ≠ hd2.addr) :
    view (storeAt h (some hd) i x) (some hd2) = view h (some hd2) := by
  simp only [storeAt, view]
  by_cases hi : i < hd.len
  · simp only [hi, if_true, heap_getD_set_ne h _ hd.addr hd2.addr hne]
  · simp only [hi, if_false]

theorem memReadSortedList_cached (h : Heap) (c : memContract) (ctx : Context) (s : RefSlice)
    (hs : c.data "sorted_list" = some s) :
    memReadSortedList h c ctx =
      (h, c, addOperationsToContext ctx [read],
        Except.ok (memToResponse (addOperationsToContext ctx [read]) s)) := by
  simp [memReadSortedList, hs]

theorem memReadSortedList_uncached (h : Heap) (c : memContract) (ctx : Context) (u : RefSlice)
    (hs : c.data "sorted_list" = none) (hu : c.data "unsorted_list" = some u) :
    memReadSortedList h c ctx =
      ((memSortList h u).1,
        { data := fun k => if k = "sorted_list" then some (memSortList h u).2 else c.data k },
        addOperationsToContext (addOperationsToContext ctx [read]) [write],
        Except.ok (memToResponse
          (addOperationsToContext (addOperationsToContext ctx [read]) [write])
          (memSortList h u).2)) := by
  simp [memReadSortedList, hs, hu]

theorem memReadSortedList_missing (h : Heap) (c : memContract) (ctx : Context)
    (hs : c.data "sorted_list" = none) (hu : c.data "unsorted_list" = none) :
    memReadSortedList h c ctx =
      (h, c, addOperationsToContext ctx [read], Except.error "no unsorted list") := by
  simp [memReadSortedList, hs, hu]

theorem memToResponse_data (ctx : Context) (ops : List operation) (s : RefSlice) :
    (memToResponse (addOperationsToContext ctx ops) s).data = s := rfl

theorem absContract_alloc (h : Heap) (c : memContract) (a : List Int) (hwf : memWF h c)
    (k : String) : (c.data k).map (view (h ++ [a])) = (c.data k).map (view h) := by
  cases hk : c.data k with
  | none => rfl
  | some s =>
    cases s with
    | none => rfl
    | some hd =>
      simp only [Option.map_some']
      rw [view_alloc_old h a hd (hwf k hd hk)]

/-- The program on headers computes what the program on sequences computes:
for a well-formed heap, the contract, the context and the result of
`memReadSortedList` denote those of `ReadSortedList`. -/
theorem memReadSortedList_refines (h : Heap) (c : memContract) (ctx : Context)
    (hwf : memWF h c) :
    absContract (memReadSortedList h c ctx).1 (memReadSortedList h c ctx).2.1 =
      ((absContract h c).ReadSortedList ctx).1 ∧
    (memReadSortedList h c ctx).2.2.1 = ((absContract h c).ReadSortedList ctx).2.1 ∧
    Except.map (absResponse (memReadSortedList h c ctx).1) (memReadSortedList h c ctx).2.2.2 =
      ((absContract h c).ReadSortedList ctx).2.2 := by
  cases hs : c.data "sorted_list" with
  | some s =>
    have hs2 : (absContract h c).data "sorted_list" = some (view h s) := by
      simp [absContract, hs]
    rw [memReadSortedList_cached h c ctx s hs, ReadSortedList_cached _ ctx _ hs2]
    exact ⟨rfl, rfl, rfl⟩
  | none =>
    have hs2 : (absContract h c).data "sorted_list" = none := by
      simp [absContract, hs]
    cases hu : c.data "unsorted_list" with
    | none =>
      have hu2 : (absContract h c).data "unsorted_list" = none := by
        simp [absContract, hu]
      rw [memReadSortedList_missing h c ctx hs hu, ReadSortedList_missing _ ctx hs2 hu2]
      exact ⟨rfl, rfl, rfl⟩
    | some u =>
      have hu2 : (absContract h c).data "unsorted_list" = some (view h u) := by
        simp [absContract, hu]
      rw [memReadSortedList_uncached h c ctx u hs hu, ReadSortedList_uncached _ ctx _ hs2 hu2]
      have hnew : view (memSortList h u).1 (memSortList h u).2 = sortList (view h u) :=
        view_alloc_new h (sortList (view h u)).elems
      refine ⟨?_, rfl, ?_⟩
      · simp only [absContract, memSortList]
        congr 1
        funext k
        by_cases hk : k = "sorted_list"
        · subst hk
          simp only [mapSet, if_true, Option.map_some']
          exact congrArg some hnew
        · simp only [mapSet, hk, if_false]
          exact absContract_alloc h c _ hwf k
      · simp only [Except.map, absResponse, memToResponse, toResponse, addOperationsToContext,
          hnew]

/-- Well-formedness is kept by `memReadSortedList`. -/
theorem memReadSortedList_wf (h : Heap) (c : memContract) (ctx : Context) (hwf : memWF h c) :
    memWF (memReadSortedList h c ctx).1 (memReadSortedList h c ctx).2.1 := by
  cases hs : c.data "sorted_list" with
  | some s =>
    rw [memReadSortedList_cached h c ctx s hs]
    exact hwf
  | none =>
    cases hu : c.data "unsorted_list" with
    | none =>
      rw [memReadSortedList_missing h c ctx hs hu]
      exact hwf
    | some u =>
      rw [memReadSortedList_uncached h c ctx u hs hu]
      intro k hd hk
      simp only [memSortList, List.length_append, List.length_singleton] at hk ⊢
      by_cases hks : k = "sorted_list"
      · simp only [hks, if_true, Option.some.injEq] at hk
        rw [← hk]
        exact Nat.lt_succ_self _
      · simp only [hks, if_false] at hk
        exact Nat.lt_succ_of_lt (hwf k hd hk)

theorem memNewContract_wf : memWF memNewContract.1 memNewContract.2 := by
  intro k hd hk
  simp only [memNewContract] at hk ⊢
  split at hk
  · simp only [Option.some.injEq] at hk
    rw [← hk]
    decide
  · exact absurd hk (by simp)

/-- The program on headers computes what the program on sequences computes,
for `SetList`. -/
theorem memSetList_refines (h : Heap) (c : memContract) (ctx : Context) (slice : RefSlice) :
    absContract (memSetList h c ctx slice).1 (memSetList h c ctx slice).2.1 =
      ((absContract h c).SetList ctx (view h slice)).1 ∧
    (memSetList h c ctx slice).2.2.1 = ((absContract h c).SetList ctx (view h slice)).2.1 ∧
    absResponse (memSetList h c ctx slice).1 (memSetList h c ctx slice).2.2.2 =
      ((absContract h c).SetList ctx (view h slice)).2.2 := by
  refine ⟨?_, rfl, rfl⟩
  simp only [absContract, memSetList, contract.SetList]
  congr 1
  funext k
  by_cases hk : k = "sorted_list"
  · simp [mapDelete, hk]
  · by_cases hu : k = "unsorted_list"
    · simp [mapDelete, mapSet, hu]
    · simp [mapDelete, mapSet, hk, hu]

/-! ## Lemmas on call sequences over the heap -/

theorem storeAt_length (h : Heap) (s : RefSlice) (i : Nat) (x : Int) :
    (storeAt h s i x).length = h.length := by
  cases s with
  | none => rfl
  | some hd =>
    simp only [storeAt]
    split
    · exact List.length_set _ _ _
    · rfl

theorem view_alloc_stored (h : Heap) (c : memContract) (a : List Int) (hwf : memWF h c)
    (k : String) (t : RefSlice) (hk : c.data k = some t) :
    view (h ++ [a]) t = view h t := by
  cases t with
  | none => rfl
  | some hd => exact view_alloc_old h a hd (hwf k hd hk)

theorem view_write_stored (h : Heap) (c : memContract) (s : RefSlice) (i : Nat) (x : Int)
    (k : String) (t : RefSlice) (hk : c.data k = some t)
    (hne : ∀ hd, s = some hd → storedAddr c k ≠ some hd.addr) :
    view (storeAt h s i x) t = view h t := by
  cases s with
  | none => rfl
  | some hd =>
    cases t with
    | none => rfl
    | some hd2 =>
      have h1 : storedAddr c k = some hd2.addr := by simp [storedAddr, hk]
      have h2 := hne hd rfl
      rw [h1] at h2
      exact view_storeAt_other h hd hd2 i x (fun he => h2 (by rw [he]))

theorem memStep_wf (st : Heap × memContract) (call : MemCall) (hok : callOK st call = true)
    (hwf : memWF st.1 st.2) : memWF (memStep st call).1 (memStep st call).2 := by
  cases call with
  | setList ctx slice =>
    intro k hd hk
    simp only [memStep, memSetList] at hk ⊢
    by_cases hks : k = "sorted_list"
    · simp [hks] at hk
    · simp only [hks, if_false] at hk
      by_cases hku : k = "unsorted_list"
      · simp only [hku, if_true, Option.some.injEq] at hk
        simp only [callOK, hk, allocated, decide_eq_true_eq] at hok
        exact hok
      · simp only [hku, if_false] at hk
        exact hwf k hd hk
  | readSortedList ctx => exact memReadSortedList_wf st.1 st.2 ctx hwf
  | alloc a =>
    intro k hd hk
    simp only [memStep, List.length_append, List.length_singleton] at hk ⊢
    exact Nat.lt_succ_of_lt (hwf k hd hk)
  | write slice i x =>
    intro k hd hk
    simp only [memStep, storeAt_length] at hk ⊢
    exact hwf k hd hk

theorem memStep_cacheInv (st : Heap × memContract) (call : MemCall)
    (hok : callOK st call = true) (hwf : memWF st.1 st.2) (hinv : memCacheInv st) :
    memCacheInv (memStep st call) := by
  cases call with
  | setList ctx slice =>
    intro s hs
    simp [memStep, memSetList] at hs
  | readSortedList ctx =>
    intro s hs
    simp only [memStep] at hs ⊢
    cases hc : st.2.data "sorted_list" with
    | some s0 =>
      rw [memReadSortedList_cached st.1 st.2 ctx s0 hc] at hs ⊢
      exact hinv s hs
    | none =>
      cases hu : st.2.data "unsorted_list" with
      | none =>
        rw [memReadSortedList_missing st.1 st.2 ctx hc hu] at hs ⊢
        exact hinv s hs
      | some u =>
        rw [memReadSortedList_uncached st.1 st.2 ctx u hc hu] at hs ⊢
        simp only [if_true, Option.some.injEq] at hs
        refine ⟨u, by simpa using hu, ?_⟩
        rw [← hs]
        have hnew : view (memSortList st.1 u).1 (memSortList st.1 u).2 = sortList (view st.1 u) :=
          view_alloc_new st.1 (sortList (view st.1 u)).elems
        rw [hnew]
        have hold : view (memSortList st.1 u).1 u = view st.1 u :=
          view_alloc_stored st.1 st.2 _ hwf "unsorted_list" u hu
        rw [hold]
  | alloc a =>
    intro s hs
    simp only [memStep] at hs ⊢
    obtain ⟨u, hu, hv⟩ := hinv s hs
    refine ⟨u, hu, ?_⟩
    rw [view_alloc_stored st.1 st.2 a hwf "sorted_list" s hs,
      view_alloc_stored st.1 st.2 a hwf "unsorted_list" u hu]
    exact hv
  | write slice i x =>
    intro s hs
    simp only [memStep] at hs ⊢
    obtain ⟨u, hu, hv⟩ := hinv s hs
    refine ⟨u, hu, ?_⟩
    have hno : ∀ hd, slice = some hd →
        ¬ (storedAddr st.2 "unsorted_list" = some hd.addr ∨
          storedAddr st.2 "sorted_list" = some hd.addr) := by
      intro hd hsl
      subst hsl
      simpa [callOK, sharedWithStore] using hok
    rw [view_write_stored st.1 st.2 slice i x "sorted_list" s hs
        (fun hd hsl => fun he => hno hd hsl (Or.inr he)),
      view_write_stored st.1 st.2 slice i x "unsorted_list" u hu
        (fun hd hsl => fun he => hno hd hsl (Or.inl he))]
    exact hv

theorem foldl_memStep_inv (calls : List MemCall) : ∀ st : Heap × memContract,
    callsOK st calls = true → memWF st.1 st.2 → memCacheInv st →
    memCacheInv (calls.foldl memStep st) := by
  induction calls with
  | nil => intro st _ _ hinv; exact hinv
  | cons call calls ih =>
    intro st hok hwf hinv
    simp only [callsOK, Bool.and_eq_true] at hok
    exact ih (memStep st call) hok.2 (memStep_wf st call hok.1 hwf)
      (memStep_cacheInv st call hok.1 hwf hinv)

theorem memNewContract_cacheInv : memCacheInv memNewContract := by
  intro s hs
  simp [memNewContract] at hs

theorem memStep_unsorted (st : Heap × memContract) (call : MemCall)
    (h : ∃ u, st.2.data "unsorted_list" = some u) :
    ∃ u, (memStep st call).2.data "unsorted_list" = some u := by
  obtain ⟨u, hu⟩ := h
  cases call with
  | setList ctx slice => exact ⟨slice, by simp [memStep, memSetList]⟩
  | readSortedList ctx =>
    simp only [memStep]
    cases hc : st.2.data "sorted_list" with
    | some s0 =>
      rw [memReadSortedList_cached st.1 st.2 ctx s0 hc]
      exact ⟨u, hu⟩
    | none =>
      rw [memReadSortedList_uncached st.1 st.2 ctx u hc hu]
      exact ⟨u, by simpa using hu⟩
  | alloc a => exact ⟨u, hu⟩
  | write slice i x => exact ⟨u, hu⟩

/-- Whatever the caller does, writes through shared slices included,
"unsorted_list" stays present. -/
theorem memRun_unsorted_present (calls : List MemCall) :
    ∃ u, (memRun calls).2.data "unsorted_list" = some u := by
  have key : ∀ (cs : List MemCall) (st : Heap × memContract),
      (∃ u, st.2.data "unsorted_list" = some u) →
      ∃ u, (cs.foldl memStep st).2.data "unsorted_list" = some u := by
    intro cs
    induction cs with
    | nil => intro st h; exact h
    | cons call cs ih => intro st h; exact ih (memStep st call) (memStep_unsorted st call h)
  exact key calls memNewContract ⟨some ⟨0, 8⟩, by simp [memNewContract]⟩

/-! ## Properties of the specification -/

/-- C1: for every slice `v`, the result of `sortList v` is ascending: it is
sorted by `≤`, and every adjacent pair satisfies `res[k] ≤ res[k+1]`. -/
theorem sortList_ascending (v : Slice) :
    List.Sorted (· ≤ ·) (sortList v).elems ∧
    ∀ k, k + 1 < (sortList v).elems.length →
      (sortList v).elems.getD k 0 ≤ (sortList v).elems.getD (k + 1) 0 := by
  refine ⟨sortList_elems_sorted v, ?_⟩
  intro k hk
  have hs := sortList_elems_sorted v
  have hk0 : k < (sortList v).elems.length := by omega
  rw [List.getD_eq_getElem _ _ hk0, List.getD_eq_getElem _ _ hk]
  have := List.Sorted.rel_get_of_lt hs (a := ⟨k, hk0⟩) (b := ⟨k + 1, hk⟩) (by simp)
  simpa using this

theorem sortList_ascending_witness :
    0 + 1 < (sortList (some [2, 1, 3])).elems.length ∧
    (sortList (some [2, 1, 3])).elems.getD 0 0 ≤ (sortList (some [2, 1, 3])).elems.getD (0 + 1) 0 :=
  ⟨by decide, (sortList_ascending (some [2, 1, 3])).2 0 (by decide)⟩

/-- C2: for every slice `v`, the result of `sortList v` is a permutation of
`v`: same length, and every value occurs as often in the result as in `v`. -/
theorem sortList_permutation (v : Slice) :
    (sortList v).elems.Perm v.elems ∧
    (sortList v).elems.length = v.elems.length ∧
    ∀ x : Int, (sortList v).elems.count x = v.elems.count x :=
  ⟨sortList_elems_perm v, (sortList_elems_perm v).length_eq,
    fun x => (sortList_elems_perm v).count_eq x⟩

/-- C3: from any contract, with or without a cached "sorted_list", and for any
two contexts, `SetList v` followed by `ReadSortedList` returns no error and a
response whose data is `sortList v`. -/
theorem SetList_then_ReadSortedList (c : contract) (ctx1 ctx2 : Context) (v : Slice) :
    ∃ r, ((c.SetList ctx1 v).1.ReadSortedList ctx2).2.2 = Except.ok r ∧ r.data = sortList v := by
  rw [ReadSortedList_uncached _ ctx2 v (SetList_sorted c ctx1 v) (SetList_unsorted c ctx1 v)]
  exact ⟨_, rfl, rfl⟩

/-- The cache invariant on sequences, where a slice is the sequence it holds
and nothing is shared with a caller: in every contract reached from
`newContract` by `SetList` and `ReadSortedList` calls alone, a present
"sorted_list" is `sortList` of the present "unsorted_list". -/
theorem cache_invariant (calls : List Call) (s : Slice)
    (h : (run calls).data "sorted_list" = some s) :
    ∃ u, (run calls).data "unsorted_list" = some u ∧ s = sortList u :=
  foldl_step_cacheInv calls newContract
    (fun s0 h0 => absurd h0 (by simp [newContract])) s h

theorem cache_invariant_witness :
    (run [Call.setList none (some [2, 1, 3]), Call.readSortedList none]).data "sorted_list"
      = some (some [1, 2, 3]) ∧
    ∃ u, (run [Call.setList none (some [2, 1, 3]), Call.readSortedList none]).data "unsorted_list"
      = some u ∧ some [1, 2, 3] = sortList u :=
  ⟨by decide,
    cache_invariant [Call.setList none (some [2, 1, 3]), Call.readSortedList none]
      (some [1, 2, 3]) (by decide)⟩

/-- C5: the missing-source-data error is unreachable. In every contract
reached from `newContract` by a finite sequence of `SetList` and
`ReadSortedList` calls, "unsorted_list" is present, and `ReadSortedList`
with any context returns a response and no error. -/
theorem missing_source_unreachable (calls : List Call) :
    (∃ u, (run calls).data "unsorted_list" = some u) ∧
    ∀ ctx : Context, ∃ r, ((run calls).ReadSortedList ctx).2.2 = Except.ok r := by
  have h : ∃ u, (run calls).data "unsorted_list" = some u :=
    foldl_step_unsorted calls newContract ⟨some [8, 4, 3, 0, 1, 3, 6, 4], by simp [newContract]⟩
  refine ⟨h, ?_⟩
  intro ctx
  obtain ⟨u, hu⟩ := h
  exact ReadSortedList_ok_of_unsorted _ ctx u hu

/-- C6: when "sorted_list" is absent and "unsorted_list" holds `u`,
`ReadSortedList` on a context with details `(g, f)` returns data `sortList u`,
gas `g + 21` (in `int` arithmetic, exactly `g + 21` when that is
representable) and `free = false`, and leaves "sorted_list" equal to
`sortList u`; on a context without details the gas is 21 and `free` is false. -/
theorem ReadSortedList_fills_cache (c : contract) (u : Slice)
    (hs : c.data "sorted_list" = none) (hu : c.data "unsorted_list" = some u) :
    (∀ (g : Int) (f : Bool),
      (c.ReadSortedList (some ⟨g, f⟩)).2.2 = Except.ok ⟨sortList u, wrapInt (g + 21), false⟩ ∧
      (minInt ≤ g → g + 21 ≤ maxInt →
        (c.ReadSortedList (some ⟨g, f⟩)).2.2 = Except.ok ⟨sortList u, g + 21, false⟩) ∧
      (c.ReadSortedList (some ⟨g, f⟩)).1.data "sorted_list" = some (sortList u)) ∧
    (c.ReadSortedList none).2.2 = Except.ok ⟨sortList u, 21, false⟩ ∧
    (c.ReadSortedList none).1.data "sorted_list" = some (sortList u) := by
  refine ⟨?_, ?_, ?_⟩
  · intro g f
    rw [ReadSortedList_uncached c _ u hs hu, record_read_write]
    refine ⟨rfl, ?_, by simp [mapSet]⟩
    intro h1 h2
    rw [wrapInt_of_inRange (g + 21) (by omega) h2]
    rfl
  · rw [ReadSortedList_uncached c _ u hs hu]
    rfl
  · rw [ReadSortedList_uncached c _ u hs hu]
    simp [mapSet]

theorem ReadSortedList_fills_cache_witness :
    (newContract.data "sorted_list" = none ∧
      newContract.data "unsorted_list" = some (some [8, 4, 3, 0, 1, 3, 6, 4])) ∧
    (minInt ≤ 5 ∧ (5 : Int) + 21 ≤ maxInt) ∧
    (newContract.ReadSortedList (some ⟨5, true⟩)).2.2 =
      Except.ok ⟨sortList (some [8, 4, 3, 0, 1, 3, 6, 4]), 5 + 21, false⟩ :=
  ⟨⟨by decide, by decide⟩, ⟨by decide, by decide⟩,
    ((ReadSortedList_fills_cache newContract (some [8, 4, 3, 0, 1, 3, 6, 4])
      (by decide) (by decide)).1 5 true).2.1 (by decide) (by decide)⟩

/-- C7: when "sorted_list" holds `s`, `ReadSortedList` on a context with
details `(g, f)` returns data `s`, gas `g + 1` (in `int` arithmetic, exactly
`g + 1` when that is representable) and `free = f`; the only recording is that
of `read`, and the contract is unchanged; on a context without details the gas
is 1 and `free` is true. -/
theorem ReadSortedList_cache_hit (c : contract) (s : Slice)
    (hs : c.data "sorted_list" = some s) :
    (∀ (g : Int) (f : Bool),
      (c.ReadSortedList (some ⟨g, f⟩)).2.2 = Except.ok ⟨s, wrapInt (g + 1), f⟩ ∧
      (minInt ≤ g → g + 1 ≤ maxInt →
        (c.ReadSortedList (some ⟨g, f⟩)).2.2 = Except.ok ⟨s, g + 1, f⟩) ∧
      (c.ReadSortedList (some ⟨g, f⟩)).2.1 = addOperationsToContext (some ⟨g, f⟩) [read] ∧
      (c.ReadSortedList (some ⟨g, f⟩)).1 = c) ∧
    (c.ReadSortedList none).2.2 = Except.ok ⟨s, 1, true⟩ ∧
    (c.ReadSortedList none).2.1 = addOperationsToContext none [read] ∧
    (c.ReadSortedList none).1 = c := by
  refine ⟨?_, ?_, ?_, ?_⟩
  · intro g f
    rw [ReadSortedList_cached c _ s hs, record_read]
    refine ⟨rfl, ?_, rfl, rfl⟩
    intro h1 h2
    rw [wrapInt_of_inRange (g + 1) (by omega) h2]
    rfl
  · rw [ReadSortedList_cached c _ s hs]
    rfl
  · rw [ReadSortedList_cached c _ s hs]
  · rw [ReadSortedList_cached c _ s hs]

theorem ReadSortedList_cache_hit_witness :
    (mapSet newContract.data "sorted_list" (some [1, 2])) "sorted_list" = some (some [1, 2]) ∧
    (minInt ≤ 5 ∧ (5 : Int) + 1 ≤ maxInt) ∧
    (contract.ReadSortedList ⟨mapSet newContract.data "sorted_list" (some [1, 2])⟩
      (some ⟨5, true⟩)).2.2 = Except.ok ⟨some [1, 2], 5 + 1, true⟩ :=
  ⟨by decide, ⟨by decide, by decide⟩,
    ((ReadSortedList_cache_hit ⟨mapSet newContract.data "sorted_list" (some [1, 2])⟩ (some [1, 2])
      (by decide)).1 5 true).2.1 (by decide) (by decide)⟩

/-- C8: for every contract and slice `v`, `SetList v` on a context without
details returns gas 5, `free = false` and nil data, whatever "sorted_list"
held before; on a context with details `(g, f)` the gas is `g + 5` (in `int`
arithmetic, exactly `g + 5` when that is representable) and `free` is false. -/
theorem SetList_response (c : contract) (v : Slice) :
    (c.SetList none v).2.2 = ⟨none, 5, false⟩ ∧
    ∀ (g : Int) (f : Bool),
      (c.SetList (some ⟨g, f⟩) v).2.2 = ⟨none, wrapInt (g + 5), false⟩ ∧
      (minInt ≤ g → g + 5 ≤ maxInt → (c.SetList (some ⟨g, f⟩) v).2.2 = ⟨none, g + 5, false⟩) := by
  refine ⟨rfl, ?_⟩
  intro g f
  have h : (c.SetList (some ⟨g, f⟩) v).2.2 = ⟨none, wrapInt (g + 5), false⟩ := by
    simp only [contract.SetList, record_write_del]
    rfl
  refine ⟨h, ?_⟩
  intro h1 h2
  rw [h, wrapInt_of_inRange (g + 5) (by omega) h2]

theorem SetList_response_witness :
    (minInt ≤ 21 ∧ (21 : Int) + 5 ≤ maxInt) ∧
    (newContract.SetList (some ⟨21, false⟩) (some [2, 1, 3])).2.2 = ⟨none, 21 + 5, false⟩ :=
  ⟨⟨by decide, by decide⟩,
    ((SetList_response newContract (some [2, 1, 3])).2 21 false).2 (by decide) (by decide)⟩

/-- C9: for every contract, context and slice `v` (nil, empty or with
duplicates), `SetList v` returns a response, and afterwards "unsorted_list"
holds `v` and "sorted_list" is absent. -/
theorem SetList_store (c : contract) (ctx : Context) (v : Slice) :
    (c.SetList ctx v).1.data "unsorted_list" = some v ∧
    (c.SetList ctx v).1.data "sorted_list" = none ∧
    (c.SetList ctx v).2.2 = toResponse (addOperationsToContext ctx [write, del]) none :=
  ⟨SetList_unsorted c ctx v, SetList_sorted c ctx v, rfl⟩

/-- C10: recording `ops` on details with gas `g` in the `int` range (or on a
context without details, where `g = 0`) yields details whose gas is `g` plus
the sum of the operations' costs, in `int` arithmetic, and exactly that sum
when it is representable; the costs are `del = -15`, `read = 1`, `modify = 5`,
`write = 20`, and recording `del` lowers a gas of 0 to -15. -/
theorem addOperationsToContext_gas (ops : List operation) :
    (del = -15 ∧ read = 1 ∧ modify = 5 ∧ write = 20) ∧
    (∀ (g : Int) (f : Bool), minInt ≤ g → g ≤ maxInt →
      ∃ d, addOperationsToContext (some ⟨g, f⟩) ops = some d ∧
        d.gas = wrapInt (g + ops.sum) ∧
        (minInt ≤ g + ops.sum → g + ops.sum ≤ maxInt → d.gas = g + ops.sum)) ∧
    (∃ d, addOperationsToContext none ops = some d ∧
      d.gas = wrapInt (0 + ops.sum) ∧
      (minInt ≤ ops.sum → ops.sum ≤ maxInt → d.gas = 0 + ops.sum)) ∧
    addOperationsToContext none [del] = some ⟨-15, true⟩ := by
  have key : ∀ (g : Int) (f : Bool), minInt ≤ g → g ≤ maxInt →
      (ops.foldl recordOp ⟨g, f⟩).gas = wrapInt (g + ops.sum) := by
    intro g f h1 h2
    rw [foldl_recordOp_gas]
    by_cases h : ops = []
    · subst h
      simp [wrapInt_of_inRange g h1 h2]
    · simp [h]
  refine ⟨⟨rfl, rfl, rfl, rfl⟩, ?_, ?_, by decide⟩
  · intro g f h1 h2
    refine ⟨_, rfl, key g f h1 h2, ?_⟩
    intro h3 h4
    rw [key g f h1 h2, wrapInt_of_inRange _ h3 h4]
  · refine ⟨_, rfl, key 0 true (by decide) (by decide), ?_⟩
    intro h3 h4
    rw [key 0 true (by decide) (by decide),
      wrapInt_of_inRange (0 + ops.sum) (by simpa using h3) (by simpa using h4)]

theorem addOperationsToContext_gas_witness :
    (minInt ≤ 7 ∧ (7 : Int) ≤ maxInt) ∧
    ∃ d, addOperationsToContext (some ⟨7, true⟩) [write, del] = some d ∧
      d.gas = wrapInt (7 + [write, del].sum) ∧
      (minInt ≤ 7 + [write, del].sum → 7 + [write, del].sum ≤ maxInt →
        d.gas = 7 + [write, del].sum) :=
  ⟨⟨by decide, by decide⟩,
    (addOperationsToContext_gas [write, del]).2.1 7 true (by decide) (by decide)⟩

/-- C11: after `addOperationsToContext`, the free flag is true exactly when it
was true before (true for a context without details) and no recorded operation
is `modify` or `write`; hence recording only `read` and `del` keeps the flag,
and a flag that is false stays false. -/
theorem addOperationsToContext_free (ops : List operation) :
    (∀ (g : Int) (f : Bool), ∃ d, addOperationsToContext (some ⟨g, f⟩) ops = some d ∧
      (d.free = true ↔ f = true ∧ ∀ op ∈ ops, op ≠ modify ∧ op ≠ write)) ∧
    (∃ d, addOperationsToContext none ops = some d ∧
      (d.free = true ↔ ∀ op ∈ ops, op ≠ modify ∧ op ≠ write)) ∧
    (∀ (g : Int) (f : Bool), (∀ op ∈ ops, op = read ∨ op = del) →
      ∃ d, addOperationsToContext (some ⟨g, f⟩) ops = some d ∧ d.free = f) ∧
    (∀ g : Int, ∃ d, addOperationsToContext (some ⟨g, false⟩) ops = some d ∧ d.free = false) := by
  refine ⟨?_, ?_, ?_, ?_⟩
  · intro g f
    exact ⟨_, rfl, foldl_recordOp_free ops ⟨g, f⟩⟩
  · refine ⟨_, rfl, ?_⟩
    rw [foldl_recordOp_free]
    simp
  · intro g f h
    refine ⟨_, rfl, ?_⟩
    have hno : ∀ op ∈ ops, op ≠ modify ∧ op ≠ write := by
      intro op hop
      rcases h op hop with h1 | h1 <;> subst h1 <;> decide
    have := foldl_recordOp_free ops ⟨g, f⟩
    cases f with
    | true => exact this.mpr ⟨rfl, hno⟩
    | false =>
      cases hf : (ops.foldl recordOp ⟨g, false⟩).free with
      | false => rfl
      | true => exact absurd (this.mp hf).1 (by simp)
  · intro g
    refine ⟨_, rfl, ?_⟩
    have := foldl_recordOp_free ops ⟨g, false⟩
    cases hf : (ops.foldl recordOp ⟨g, false⟩).free with
    | false => rfl
    | true => exact absurd (this.mp hf).1 (by simp)

theorem addOperationsToContext_free_witness :
    (∀ op ∈ [read, del, read], op = read ∨ op = del) ∧
    ∃ d, addOperationsToContext (some ⟨3, true⟩) [read, del, read] = some d ∧ d.free = true :=
  ⟨by decide, (addOperationsToContext_free [read, del, read]).2.2.1 3 true (by decide)⟩

/-- C12 fails for a context without details: the details `SetList` creates
are lost with the context it derives, so `ReadSortedList` with the caller's
context starts again from zero and reports gas 21, not 26. -/
theorem setThenRead_fresh_not_cumulative :
    ∃ r, (setThenRead newContract none (some [2, 1, 3])).2.2 = Except.ok r ∧
      r.data = some [1, 2, 3] ∧ r.gas = 21 ∧ r.gas ≠ 26 ∧
      (setThenRead newContract none (some [2, 1, 3])).2.1 = none :=
  ⟨⟨some [1, 2, 3], 21, false⟩, rfl, rfl, rfl, by decide, rfl⟩

/-- C12, amended: for every contract and slice `v`, `SetList v` followed by
`ReadSortedList` with the same context leaves details that started as
`(0, true)` at gas 26 and `free = false`, and the second response reports
data `sortList v`, gas 26 and `free = false`; with a context that carries no
details the second response reports gas 21 and `free = false`, and the
caller's context still carries none. -/
theorem setThenRead_cost (c : contract) (v : Slice) :
    ((setThenRead c (some ⟨0, true⟩) v).2.2 = Except.ok ⟨sortList v, 26, false⟩ ∧
      (setThenRead c (some ⟨0, true⟩) v).2.1 = some ⟨26, false⟩) ∧
    ((setThenRead c none v).2.2 = Except.ok ⟨sortList v, 21, false⟩ ∧
      (setThenRead c none v).2.1 = none) := by
  have h26 : wrapInt (wrapInt (0 + 5) + 21) = 26 := by decide
  refine ⟨?_, ?_⟩
  · simp only [setThenRead, callerContext]
    rw [ReadSortedList_uncached _ _ v (SetList_sorted c _ v) (SetList_unsorted c _ v)]
    simp only [contract.SetList, record_write_del, record_read_write, toResponse, h26]
    exact ⟨trivial, trivial⟩
  · simp only [setThenRead, callerContext]
    rw [ReadSortedList_uncached _ _ v (SetList_sorted c _ v) (SetList_unsorted c _ v)]
    exact ⟨rfl, trivial⟩

/-- C13: on `newContract`, `ReadSortedList` with a context without details
returns data `[0,1,3,3,4,4,6,8]`, gas 21 and `free = false`; a second
`ReadSortedList` on the resulting contract, again with a context without
details, returns the same data with gas 1 and `free = true`. -/
theorem default_store_end_to_end :
    (newContract.ReadSortedList none).2.2 =
      Except.ok ⟨some [0, 1, 3, 3, 4, 4, 6, 8], 21, false⟩ ∧
    ((newContract.ReadSortedList none).1.ReadSortedList none).2.2 =
      Except.ok ⟨some [0, 1, 3, 3, 4, 4, 6, 8], 1, true⟩ := by
  set_option maxRecDepth 100000 in
  exact ⟨rfl, rfl⟩

/-- C14: `sortList` is idempotent: for every slice `v`,
`sortList (sortList v) = sortList v`. -/
theorem sortList_idempotent (v : Slice) : sortList (sortList v) = sortList v := by
  have h := sortList_of_sorted (sortList v) (sortList_elems_sorted v)
  rw [h, sortList_eq]
  rfl

/-- C15: for every contract and context, `ReadSortedList` returns an error
exactly when the contract holds neither "sorted_list" nor "unsorted_list";
when at least one of the two keys is present it returns a response. -/
theorem ReadSortedList_error_iff (c : contract) (ctx : Context) :
    ((∃ e, (c.ReadSortedList ctx).2.2 = Except.error e) ↔
      (c.data "sorted_list" = none ∧ c.data "unsorted_list" = none)) ∧
    ((c.data "sorted_list" ≠ none ∨ c.data "unsorted_list" ≠ none) →
      ∃ r, (c.ReadSortedList ctx).2.2 = Except.ok r) := by
  refine ⟨⟨?_, ?_⟩, ?_⟩
  · rintro ⟨e, he⟩
    exact ReadSortedList_error_keys c ctx e he
  · rintro ⟨h, hu⟩
    rw [ReadSortedList_missing c ctx h hu]
    exact ⟨_, rfl⟩
  · intro h
    cases hc : c.data "sorted_list" with
    | some s0 =>
      rw [ReadSortedList_cached c ctx s0 hc]
      exact ⟨_, rfl⟩
    | none =>
      cases hu : c.data "unsorted_list" with
      | none =>
        rcases h with h | h
        · exact absurd hc h
        · exact absurd hu h
      | some u => exact ReadSortedList_ok_of_unsorted c ctx u hu

theorem ReadSortedList_error_iff_witness :
    (newContract.data "sorted_list" ≠ none ∨ newContract.data "unsorted_list" ≠ none) ∧
    ∃ r, (newContract.ReadSortedList none).2.2 = Except.ok r :=
  ⟨Or.inr (by decide), (ReadSortedList_error_iff newContract none).2 (Or.inr (by decide))⟩

/-- C16 fails for details that exist in the context: `read` is recorded
before the lookup of "unsorted_list", so a failing `ReadSortedList` on a
contract with neither key leaves details `(7, true)` at `(8, true)`. -/
theorem ReadSortedList_failure_changes_scope :
    (contract.ReadSortedList ⟨fun _ => none⟩ (some ⟨7, true⟩)).2.2 =
      Except.error "no unsorted list" ∧
    callerContext (some ⟨7, true⟩)
      (contract.ReadSortedList ⟨fun _ => none⟩ (some ⟨7, true⟩)).2.1 = some ⟨8, true⟩ ∧
    callerContext (some ⟨7, true⟩)
      (contract.ReadSortedList ⟨fun _ => none⟩ (some ⟨7, true⟩)).2.1 ≠ some ⟨7, true⟩ :=
  ⟨rfl, rfl, by decide⟩

/-- C16, amended: whenever `ReadSortedList` fails, the contract's map is
unchanged; a caller's context that carries no details still carries none,
and details `(g, f)` that exist in the context have had `read` recorded:
their gas is `g + 1` in `int` arithmetic and their free flag is `f`. -/
theorem ReadSortedList_failure_effect (c : contract) (ctx : Context) (e : String)
    (h : (c.ReadSortedList ctx).2.2 = Except.error e) :
    (c.ReadSortedList ctx).1 = c ∧
    (ctx = none → callerContext ctx (c.ReadSortedList ctx).2.1 = none) ∧
    (∀ (g : Int) (f : Bool), ctx = some ⟨g, f⟩ →
      callerContext ctx (c.ReadSortedList ctx).2.1 = some ⟨wrapInt (g + 1), f⟩) := by
  obtain ⟨hs, hu⟩ := ReadSortedList_error_keys c ctx e h
  rw [ReadSortedList_missing c ctx hs hu]
  refine ⟨rfl, ?_, ?_⟩
  · intro hc
    subst hc
    rfl
  · intro g f hc
    subst hc
    simp only [callerContext, record_read]

theorem ReadSortedList_failure_effect_witness :
    (contract.ReadSortedList ⟨fun _ => none⟩ (some ⟨7, true⟩)).2.2 =
      Except.error "no unsorted list" ∧
    callerContext (some ⟨7, true⟩)
      (contract.ReadSortedList ⟨fun _ => none⟩ (some ⟨7, true⟩)).2.1 =
        some ⟨wrapInt (7 + 1), true⟩ :=
  ⟨rfl, (ReadSortedList_failure_effect ⟨fun _ => none⟩ (some ⟨7, true⟩) "no unsorted list"
    rfl).2.2 7 true rfl⟩

/-- C18: for every slice `v` whose elements are already ascending, `sortList v`
holds the same sequence as `v` (and equals `v` when `v` is not nil), and no
iteration of the inner loop exchanges anything; in particular the nil slice,
the empty slice and every one-element slice come back unchanged. -/
theorem sortList_sorted_input (v : Slice) (h : List.Chain' (· ≤ ·) v.elems) :
    (sortList v).elems = v.elems ∧
    (v ≠ none → sortList v = v) ∧
    (∀ j, j + 1 < v.elems.length → swapStep v.elems j = v.elems) ∧
    (sortList none).elems = [] ∧
    sortList (some []) = some [] ∧
    ∀ a : Int, sortList (some [a]) = some [a] := by
  have hs : List.Sorted (· ≤ ·) v.elems := List.chain'_iff_pairwise.mp h
  refine ⟨?_, ?_, ?_, rfl, rfl, ?_⟩
  · rw [sortList_of_sorted v hs]
    rfl
  · intro hv
    rw [sortList_of_sorted v hs]
    cases v with
    | none => exact absurd rfl hv
    | some l => rfl
  · intro j hj
    exact swapStep_of_sorted v.elems hs j hj
  · intro a
    exact sortList_of_sorted (some [a]) (List.sorted_singleton a)

theorem sortList_sorted_input_witness :
    List.Chain' (· ≤ ·) (Slice.elems (some [1, 2, 2, 5])) ∧
    (sortList (some [1, 2, 2, 5])).elems = Slice.elems (some [1, 2, 2, 5]) :=
  ⟨by simp [Slice.elems],
    (sortList_sorted_input (some [1, 2, 2, 5]) (by simp [Slice.elems])).1⟩

/-- C19: recording composes: for every context, recording `ops1` and then
`ops2` on the resulting context gives the same details (gas and free flag) as
recording `ops1 ++ ops2` at once; in particular recording `read` and then
`write` equals recording `[read, write]`. -/
theorem addOperationsToContext_append (ctx : Context) (ops1 ops2 : List operation) :
    addOperationsToContext (addOperationsToContext ctx ops1) ops2 =
      addOperationsToContext ctx (ops1 ++ ops2) ∧
    addOperationsToContext (addOperationsToContext ctx [read]) [write] =
      addOperationsToContext ctx [read, write] := by
  refine ⟨?_, ?_⟩
  · cases ctx <;> simp [addOperationsToContext, List.foldl_append]
  · cases ctx <;> rfl

/-- C20: frame. `SetList` and `ReadSortedList` leave every key other than
"unsorted_list" and "sorted_list" as it was, and `ReadSortedList`, whether it
succeeds or fails, leaves "unsorted_list" as it was. -/
theorem store_frame (c : contract) (ctx : Context) (v : Slice) :
    (∀ k : String, k ≠ "unsorted_list" → k ≠ "sorted_list" →
      (c.SetList ctx v).1.data k = c.data k ∧ (c.ReadSortedList ctx).1.data k = c.data k) ∧
    (c.ReadSortedList ctx).1.data "unsorted_list" = c.data "unsorted_list" := by
  have hread : ∀ k : String, k ≠ "sorted_list" →
      (c.ReadSortedList ctx).1.data k = c.data k := by
    intro k hk
    cases hc : c.data "sorted_list" with
    | some s0 => rw [ReadSortedList_cached c ctx s0 hc]
    | none =>
      cases hu : c.data "unsorted_list" with
      | none => rw [ReadSortedList_missing c ctx hc hu]
      | some u =>
        rw [ReadSortedList_uncached c ctx u hc hu]
        simp [mapSet, hk]
  refine ⟨?_, hread "unsorted_list" (by decide)⟩
  intro k h1 h2
  refine ⟨?_, hread k h2⟩
  simp [contract.SetList, mapDelete, mapSet, h1, h2]

theorem store_frame_witness :
    ("balance" ≠ "unsorted_list" ∧ "balance" ≠ "sorted_list") ∧
    (newContract.SetList none (some [2, 1, 3])).1.data "balance" = newContract.data "balance" ∧
    (newContract.ReadSortedList none).1.data "balance" = newContract.data "balance" :=
  ⟨⟨by decide, by decide⟩,
    (store_frame newContract none (some [2, 1, 3])).1 "balance" (by decide) (by decide)⟩

/-- C17 fails: the data `ReadSortedList` returns is the slice it stored under
"sorted_list". After the caller writes `res.data[0] = 99`, the contract's
"sorted_list" reads `[99,1,3,3,4,4,6,8]`, and a later `ReadSortedList` returns
that sequence, not the sorted form `[0,1,3,3,4,4,6,8]` of "unsorted_list". -/
theorem returned_data_shares_store :
    (absContract (memReadSortedList memNewContract.1 memNewContract.2 none).1
      (memReadSortedList memNewContract.1 memNewContract.2 none).2.1).data "sorted_list" =
        some (some [0, 1, 3, 3, 4, 4, 6, 8]) ∧
    (absContract afterCallerWrite.1 afterCallerWrite.2).data "sorted_list" =
      some (some [99, 1, 3, 3, 4, 4, 6, 8]) ∧
    (absContract afterCallerWrite.1 afterCallerWrite.2).data "unsorted_list" =
      some (some [8, 4, 3, 0, 1, 3, 6, 4]) ∧
    Except.map (absResponse afterCallerWrite.1)
      (memReadSortedList afterCallerWrite.1 afterCallerWrite.2 none).2.2.2 =
        Except.ok ⟨some [99, 1, 3, 3, 4, 4, 6, 8], 1, true⟩ ∧
    sortList (some [8, 4, 3, 0, 1, 3, 6, 4]) = some [0, 1, 3, 3, 4, 4, 6, 8] := by
  set_option maxRecDepth 100000 in
  exact ⟨rfl, rfl, rfl, rfl, rfl⟩

/-- C17, amended: the data `ReadSortedList` returns is not a copy but the
slice stored under "sorted_list". A caller's write `data[i] = x` through it
shows in the contract's "sorted_list", and a later `ReadSortedList` returns
the same slice with the written sequence. When the call had to compute the
sorted list, the returned slice has a fresh backing array, and the write
leaves "unsorted_list" as it was. -/
theorem returned_data_is_stored_slice (h : Heap) (c : memContract) (ctx : Context)
    (hwf : memWF h c) (h1 : Heap) (c1 : memContract) (ctx1 : Context) (r : memResponse)
    (hrun : memReadSortedList h c ctx = (h1, c1, ctx1, Except.ok r)) :
    c1.data "sorted_list" = some r.data ∧
    (∀ (i : Nat) (x : Int),
      (absContract (storeAt h1 r.data i x) c1).data "sorted_list" =
        some ((view h1 r.data).map (fun l => l.set i x))) ∧
    (∀ (i : Nat) (x : Int) (ctx2 : Context),
      ∃ r2, (memReadSortedList (storeAt h1 r.data i x) c1 ctx2).2.2.2 = Except.ok r2 ∧
        r2.data = r.data ∧
        view (storeAt h1 r.data i x) r2.data = (view h1 r.data).map (fun l => l.set i x)) ∧
    (c.data "sorted_list" = none → ∀ (i : Nat) (x : Int),
      (absContract (storeAt h1 r.data i x) c1).data "unsorted_list" =
        (absContract h c).data "unsorted_list") := by
  have hwf1 : memWF h1 c1 := by
    have := memReadSortedList_wf h c ctx hwf
    rw [hrun] at this
    exact this
  have hview : ∀ (s : RefSlice) (i : Nat) (x : Int), c1.data "sorted_list" = some s →
      view (storeAt h1 s i x) s = (view h1 s).map (fun l => l.set i x) := by
    intro s i x hs
    cases s with
    | none => rfl
    | some hd => exact view_storeAt_self h1 hd i x (hwf1 "sorted_list" hd hs)
  have hstored : c1.data "sorted_list" = some r.data := by
    cases hs : c.data "sorted_list" with
    | some s =>
      rw [memReadSortedList_cached h c ctx s hs] at hrun
      simp only [Prod.mk.injEq, Except.ok.injEq] at hrun
      obtain ⟨_, hc, _, hr⟩ := hrun
      rw [← hc, ← hr, hs, memToResponse_data]
    | none =>
      cases hu : c.data "unsorted_list" with
      | none =>
        rw [memReadSortedList_missing h c ctx hs hu] at hrun
        simp only [Prod.mk.injEq] at hrun
        exact absurd hrun.2.2.2 (by simp)
      | some u =>
        rw [memReadSortedList_uncached h c ctx u hs hu] at hrun
        simp only [Prod.mk.injEq, Except.ok.injEq] at hrun
        obtain ⟨_, hc, _, hr⟩ := hrun
        rw [← hc, ← hr, memToResponse_data]
        simp
  refine ⟨hstored, ?_, ?_, ?_⟩
  · intro i x
    simp only [absContract, hstored, Option.map_some']
    exact congrArg some (hview r.data i x hstored)
  · intro i x ctx2
    rw [memReadSortedList_cached _ c1 ctx2 r.data hstored]
    exact ⟨_, rfl, memToResponse_data _ _ _, by
      rw [memToResponse_data]; exact hview r.data i x hstored⟩
  · intro hs i x
    cases hu : c.data "unsorted_list" with
    | none =>
      rw [memReadSortedList_missing h c ctx hs hu] at hrun
      simp only [Prod.mk.injEq] at hrun
      exact absurd hrun.2.2.2 (by simp)
    | some u =>
      rw [memReadSortedList_uncached h c ctx u hs hu] at hrun
      simp only [Prod.mk.injEq, Except.ok.injEq] at hrun
      obtain ⟨hh, hc, _, hr⟩ := hrun
      have hrd : r.data = some ⟨h.length, (sortList (view h u)).elems.length⟩ := by
        rw [← hr, memToResponse_data]
        rfl
      have hcu : c1.data "unsorted_list" = some u := by
        rw [← hc]
        simpa using hu
      simp only [absContract, hcu, hu, Option.map_some', hrd]
      congr 1
      cases u with
      | none => rfl
      | some hd =>
        have hlt : hd.addr < h.length := hwf "unsorted_list" hd hu
        rw [view_storeAt_other h1 _ hd i x (by simp only; omega), ← hh]
        exact view_alloc_old h _ hd hlt

theorem returned_data_is_stored_slice_witness :
    (memReadSortedList memNewContract.1 memNewContract.2 none).2.1.data "sorted_list" =
      some (some ⟨1, 8⟩) ∧
    (absContract (storeAt (memReadSortedList memNewContract.1 memNewContract.2 none).1
        (some ⟨1, 8⟩) 0 99)
      (memReadSortedList memNewContract.1 memNewContract.2 none).2.1).data "sorted_list" =
        some ((view (memReadSortedList memNewContract.1 memNewContract.2 none).1
          (some ⟨1, 8⟩)).map (fun l => l.set 0 99)) :=
  ⟨(returned_data_is_stored_slice memNewContract.1 memNewContract.2 none memNewContract_wf
      (memReadSortedList memNewContract.1 memNewContract.2 none).1
      (memReadSortedList memNewContract.1 memNewContract.2 none).2.1
      (memReadSortedList memNewContract.1 memNewContract.2 none).2.2.1
      ⟨some ⟨1, 8⟩, 21, false⟩ (by set_option maxRecDepth 100000 in rfl)).1,
    (returned_data_is_stored_slice memNewContract.1 memNewContract.2 none memNewContract_wf
      (memReadSortedList memNewContract.1 memNewContract.2 none).1
      (memReadSortedList memNewContract.1 memNewContract.2 none).2.1
      (memReadSortedList memNewContract.1 memNewContract.2 none).2.2.1
      ⟨some ⟨1, 8⟩, 21, false⟩ (by set_option maxRecDepth 100000 in rfl)).2.1 0 99⟩

/-- C4 fails once a caller writes to a slice it shares with the store: after
`s = [2, 1, 3]`, `SetList(s)`, `ReadSortedList()`, `s[0] = 100` and
`ReadSortedList()`, "sorted_list" is `[1, 2, 3]` beside "unsorted_list"
`[100, 1, 3]`, whose sorted form is `[1, 3, 100]`. -/
theorem cache_stale_after_caller_write :
    (absContract (memRun callerWriteTrace).1 (memRun callerWriteTrace).2).data "sorted_list" =
      some (some [1, 2, 3]) ∧
    (absContract (memRun callerWriteTrace).1 (memRun callerWriteTrace).2).data "unsorted_list" =
      some (some [100, 1, 3]) ∧
    sortList (some [100, 1, 3]) = some [1, 3, 100] ∧
    (some [1, 2, 3] : Slice) ≠ sortList (some [100, 1, 3]) :=
  ⟨rfl, rfl, rfl, by decide⟩

/-- C4, amended: cache invariant. In every state reached from `newContract`
by `SetList` and `ReadSortedList` calls, caller allocations and caller
writes, where every slice handed to `SetList` exists and no write goes to a
backing array shared with the slice stored under "unsorted_list" or
"sorted_list", a present "sorted_list" holds `sortList` of what the present
"unsorted_list" holds. -/
theorem cache_invariant_unshared (calls : List MemCall)
    (hok : callsOK memNewContract calls = true) (s : Slice)
    (hs : (absContract (memRun calls).1 (memRun calls).2).data "sorted_list" = some s) :
    ∃ u, (absContract (memRun calls).1 (memRun calls).2).data "unsorted_list" = some u ∧
      s = sortList u := by
  have hinv : memCacheInv (memRun calls) :=
    foldl_memStep_inv calls memNewContract hok memNewContract_wf memNewContract_cacheInv
  simp only [absContract] at hs ⊢
  cases hc : (memRun calls).2.data "sorted_list" with
  | none =>
    rw [hc] at hs
    exact absurd hs (by simp)
  | some s0 =>
    rw [hc] at hs
    simp only [Option.map_some', Option.some.injEq] at hs
    obtain ⟨u, hu, hv⟩ := hinv s0 hc
    refine ⟨view (memRun calls).1 u, by simp [hu], ?_⟩
    rw [← hs, hv]

theorem cache_invariant_unshared_witness :
    callsOK memNewContract
      [MemCall.alloc [2, 1, 3], MemCall.setList none (some ⟨1, 3⟩), MemCall.readSortedList none,
        MemCall.write (some ⟨0, 8⟩) 0 100, MemCall.readSortedList none] = true ∧
    ∃ u, (absContract
        (memRun [MemCall.alloc [2, 1, 3], MemCall.setList none (some ⟨1, 3⟩),
          MemCall.readSortedList none, MemCall.write (some ⟨0, 8⟩) 0 100,
          MemCall.readSortedList none]).1
        (memRun [MemCall.alloc [2, 1, 3], MemCall.setList none (some ⟨1, 3⟩),
          MemCall.readSortedList none, MemCall.write (some ⟨0, 8⟩) 0 100,
          MemCall.readSortedList none]).2).data "unsorted_list" = some u ∧
      some [1, 2, 3] = sortList u :=
  ⟨by decide,
    cache_invariant_unshared
      [MemCall.alloc [2, 1, 3], MemCall.setList none (some ⟨1, 3⟩), MemCall.readSortedList none,
        MemCall.write (some ⟨0, 8⟩) 0 100, MemCall.readSortedList none]
      (by decide) (some [1, 2, 3]) rfl⟩

end Sylo
